import Mathlib

/-!
Verification of the bhyve-home-assistant integration core.

This file shallowly embeds the derived-view and synchronizer logic of the
repository (custom_components/bhyve) and proves, or refutes, the
specification claims about it.

Modelling conventions:
* Timestamps are integers, counted in minutes of local time.  The vendor
  timestamp strings and their conversion to local time (util.py, which is
  not part of the sources) are abstracted away: a parsed timestamp is the
  minute count itself, a missing or empty timestamp is represented by
  Option.none.
* Python dictionaries with known keys become structures whose fields are
  Option-typed when the source reads them with .get.
* Computations that can raise a Python exception return PyResult; while
  loops are modelled with an explicit fuel argument whose exhaustion is
  the distinct marker PyResult.timeout (used to model divergence, never
  reached in the theorems below, which always supply sufficient fuel).
-/

/-- Result of running a piece of Python code: normal value, raised
exception, or non-termination within the supplied fuel. -/
inductive PyResult (α : Type) where
  | ok : α → PyResult α
  | raise : PyResult α
  | timeout : PyResult α
deriving DecidableEq, Repr

/-- Minutes in a day (timedelta(days=1)). -/
def minutesPerDay : Int := 1440

/-- Minutes in an hour (timedelta(hours=1)). -/
def minutesPerHour : Int := 60

/-- Calendar date of a local timestamp: floor division by the day length
(Python datetime.date() at day granularity).  Int division in Lean is
Euclidean, which is floor division for the positive divisor used here. -/
def dateOf (t : Int) : Int := t / minutesPerDay

/-- Modelled from the spec: util.py (the Time Normalizer) is not among the
sources.  Per the spec it is a pure, stateless conversion of vendor
timestamp strings to local-zone timestamps.  Because timestamps are
modelled directly as local minute counts, the conversion is the identity;
a missing or empty vendor timestamp maps to none. -/
def orbit_time_to_local_time (t : Option Int) : Option Int := t

/-- The frequency sub-record of a timer program:
program["frequency"]["interval"] (days) and
program["frequency"]["interval_start_time"] (anchor timestamp). -/
structure Frequency where
  interval : Option Int
  interval_start_time : Option Int
deriving DecidableEq, Repr

/-- The fields of a timer program record that the calendar entity reads:
truthiness of program["enabled"], truthiness of program["program"], and
the program["frequency"] sub-record (none when the key is missing). -/
structure ProgramRec where
  enabled : Bool
  hasProgram : Bool
  frequency : Option Frequency
deriving DecidableEq, Repr

/-- The while loop of BhyveCalendarEntity.event (calendar.py).
State: interval_start_time (ist) and the tracked earliest upcoming event
start.  d is the step in minutes (timedelta(days=interval)); d = none
models a missing interval, which raises (TypeError) when the step is
taken.  The loop runs while ist is at most now + 60 days; a step whose
24-hour window contains now is returned immediately; a step after now
updates the earliest tracked start. -/
def evLoop (d : Option Int) (now : Int) : Nat → Int → Option Int → PyResult (Option Int)
  | 0, ist, earliest =>
    if ist ≤ now + 60 * minutesPerDay then .timeout else .ok earliest
  | fuel + 1, ist, earliest =>
    if ist ≤ now + 60 * minutesPerDay then
      if ist ≤ now ∧ now < ist + minutesPerDay then
        .ok (some ist)
      else
        let earliest' :=
          if now < ist then
            match earliest with
            | none => some ist
            | some e => if ist < e then some ist else some e
          else earliest
        match d with
        | none => .raise
        | some dv => evLoop d now fuel (ist + dv) earliest'
    else .ok earliest

/-- Fuel that outlasts the loop: more iterations than steps of size dv fit
between the anchor and the horizon. -/
def loopFuel (a thr dv : Int) : Nat := (thr - a).toNat / dv.toNat + 1

/-- Fuel for the calendar loops: enough for a positive step, and one
iteration (enough to reach the first return or raise) otherwise. -/
def progFuel (a thr : Int) (d : Option Int) : Nat :=
  match d with
  | some dv => if 0 < dv then loopFuel a thr dv else 1
  | none => 1

/-- BhyveCalendarEntity.event (calendar.py): the current or next upcoming
occurrence of a recurring program, as the start timestamp of the
occurrence (the source wraps it in a CalendarEvent).  Returns ok none for
a disabled program or one without a program id; raises when the frequency
sub-record is missing (AttributeError on frequency.get) or the anchor is
missing (TypeError comparing None); the loop raises on a missing interval
when a step must be taken. -/
def calendar_event (p : ProgramRec) (now : Int) : PyResult (Option Int) :=
  if !p.enabled then .ok none
  else if !p.hasProgram then .ok none
  else
    match p.frequency with
    | none => .raise
    | some f =>
      match orbit_time_to_local_time f.interval_start_time with
      | none => .raise
      | some a =>
        let d := f.interval.map (· * minutesPerDay)
        evLoop d now (progFuel a (now + 60 * minutesPerDay) d) a none

/-- The rain-delay fields kept by the calendar entity: truthiness of the
status dictionary stored at init (self._device_status), the stored
rain_delay_started_at timestamp (self._delay_start; none for missing or
empty), and the stored delay hours (self._delay_hours, default 0). -/
structure CalEntityState where
  statusTruthy : Bool
  delayStart : Option Int
  delayHours : Int
deriving DecidableEq, Repr

/-- Whether an occurrence date ed falls inside the rain-delay date window
of a delay starting at rs and ending at re (calendar.py line 226). -/
def suppressed (rs re ed : Int) : Bool :=
  decide (dateOf rs ≤ ed ∧ ed ≤ dateOf re)

/-- Whether an occurrence with start date ed survives rain-delay
suppression (skip_event stays False). -/
def keepOcc (supp : Option (Int × Int)) (ed : Int) : Bool :=
  match supp with
  | none => true
  | some (rs, re) => !suppressed rs re ed

/-- The while loop of BhyveCalendarEntity.async_get_events (calendar.py):
walks from the anchor in steps of d minutes while the step is at most
thr (now + 60 days), appending one whole-day occurrence
(date, date of the next day) per step unless it is suppressed by the
rain-delay window supp.  d = none models a missing interval, raising
(TypeError on timedelta) when the step is taken. -/
def getEventsLoop (d : Option Int) (thr : Int) (supp : Option (Int × Int)) :
    Nat → Int → List (Int × Int) → PyResult (List (Int × Int))
  | 0, cur, acc =>
    if cur ≤ thr then .timeout else .ok acc
  | fuel + 1, cur, acc =>
    if cur ≤ thr then
      let acc' :=
        if keepOcc supp (dateOf cur) then
          acc ++ [(dateOf cur, dateOf (cur + minutesPerDay))]
        else acc
      match d with
      | none => .raise
      | some dv => getEventsLoop d thr supp fuel (cur + dv) acc'
    else .ok acc

/-- BhyveCalendarEntity.async_get_events (calendar.py): the list of
whole-day occurrences of a program over the next 60 days, with rain-delay
suppression.  The caller-supplied start and end dates are accepted and,
as in the source, never read.  Empty for a disabled program or one
without a program id; raises on a missing frequency sub-record or a
missing anchor. -/
def async_get_events (p : ProgramRec) (st : CalEntityState)
    (now startDate endDate : Int) : PyResult (List (Int × Int)) :=
  if !p.enabled then .ok []
  else if !p.hasProgram then .ok []
  else
    match p.frequency with
    | none => .raise
    | some f =>
      match orbit_time_to_local_time f.interval_start_time with
      | none => .raise
      | some a =>
        let supp : Option (Int × Int) :=
          if st.statusTruthy then
            match orbit_time_to_local_time st.delayStart with
            | some rs => some (rs, rs + st.delayHours * minutesPerHour)
            | none => none
          else none
        let d := f.interval.map (· * minutesPerDay)
        getEventsLoop d (now + 60 * minutesPerDay) supp
          (progFuel a (now + 60 * minutesPerDay) d) a []

/-- Number of interval steps from cur that do not exceed thr (the number
of loop iterations of async_get_events that emit). -/
def numSteps (dv cur thr : Int) : Nat :=
  if cur ≤ thr then (thr - cur).toNat / dv.toNat + 1 else 0

/-- The unsuppressed enumeration: one whole-day occurrence per interval
step from the anchor, up to the horizon. -/
def stepsList (dv cur thr : Int) : List (Int × Int) :=
  (List.range (numSteps dv cur thr)).map
    (fun k : Nat =>
      (dateOf (cur + (k : Int) * dv), dateOf (cur + (k : Int) * dv + minutesPerDay)))

/-- The raw battery record handed to the battery sensor: either not a
dictionary at all, or a dictionary whose percent and mv keys may each be
present or absent.  Numeric values are rationals (Python floats are
modelled exactly). -/
inductive BatteryData where
  | notDict : BatteryData
  | dict (percent : Option ℚ) (mv : Option ℚ) : BatteryData
deriving DecidableEq

/-- BHyveBatterySensor.parse_battery_level (sensor.py): non-record data
reports 0; a percent field is returned verbatim; otherwise a millivolt
field is converted assuming two 1.5 V cells and clamped at 100; otherwise
the level is undefined (Python None). -/
def parse_battery_level : BatteryData → Option ℚ
  | .notDict => some 0
  | .dict percent mv =>
    match percent with
    | some p => some p
    | none =>
      match mv with
      | some m => some (min (m / 3000 * 100) 100)
      | none => none

/-- Python substring test: needle in hay for strings, modelled on lists of
characters.  True when the needle occurs contiguously in the haystack. -/
def pyStrIn (needle : List Char) : List Char → Bool
  | [] => needle.isEmpty
  | c :: t => needle.isPrefixOf (c :: t) || pyStrIn needle t

/-- BHyveFloodSensor view (binary_sensor.py line 95): the flood alarm is
on exactly when status["flood_alarm_status"] equals the string "alarm"
(Python == comparison; a missing field is None and never equal). -/
def flood_alarm_state (field : Option (List Char)) : Bool :=
  match field with
  | some s => decide (s = "alarm".toList)
  | none => false

/-- BHyveTemperatureBinarySensor view (binary_sensor.py line 133): the
temperature alarm is on when the string "alarm" occurs in
status.get("temp_alarm_status", []) — Python in, i.e. substring
containment for a string value, and membership in the empty list (hence
False) when the field is missing. -/
def temp_alarm_state (field : Option (List Char)) : Bool :=
  match field with
  | some s => pyStrIn "alarm".toList s
  | none => false

/-- One per-zone irrigation record of a watering history entry
(sensor.py, BHyveZoneHistorySensor).  Every field is read with .get and
may be absent. -/
structure IrrigationRec where
  station : Option Int
  water_volume_gal : Option ℚ
  start_time : Option Int
  budget : Option Bool
  program : Option (List Char)
  program_name : Option (List Char)
  run_time : Option Int
  status : Option (List Char)
deriving DecidableEq

/-- One watering-history item: the irrigation list is read with
.get(ATTR_IRRIGATION, []). -/
structure HistoryItem where
  irrigation : Option (List IrrigationRec)

/-- The observable state of the zone-history sensor: native value (the
normalized start time; its isoformat string is modelled by the timestamp
itself) and the extra state attributes. -/
structure HistSt where
  native : Option Int
  budget : Option Bool
  program : Option (List Char)
  program_name : Option (List Char)
  run_time : Option Int
  status : Option (List Char)
  gallons : Option ℚ
  litres : Option ℚ
  start_time_raw : Option Int
deriving DecidableEq

/-- Python truthiness of an optional number (if gallons: both None and 0
are falsy). -/
def pyTruthyQ : Option ℚ → Bool
  | none => false
  | some q => decide (q ≠ 0)

/-- Rounding to two decimal places (round(x, 2)); a total stand-in for
Python rounding — only its totality matters below, not its tie-breaking
(Python rounds half to even on floats). -/
def round2 (q : ℚ) : ℚ := (round (q * 100) : ℤ) / 100

/-- The for loop of BHyveZoneHistorySensor._update_attrs (sensor.py):
find the first history item with a non-empty list of irrigation records
for this zone, take its last record, and set the sensor state from it;
the start-time attributes are only set when the normalized start time is
truthy, and the whole state is left unchanged when it is not.  The result
is a PyResult to record that no branch of the source raises. -/
def history_zone_loop (zoneId : Option Int) : List HistoryItem → HistSt → PyResult HistSt
  | [], s => .ok s
  | item :: rest, s =>
    let zi := (item.irrigation.getD []).filter (fun i => i.station == zoneId)
    if zi.isEmpty then history_zone_loop zoneId rest s
    else
      match zi.getLast? with
      | none => .ok s
      | some latest =>
        let gallons := latest.water_volume_gal
        let litres :=
          if pyTruthyQ gallons then some (round2 (gallons.getD 0 * (3785 / 1000))) else none
        match orbit_time_to_local_time latest.start_time with
        | some v =>
          .ok { native := some v, budget := latest.budget,
                program := latest.program, program_name := latest.program_name,
                run_time := latest.run_time, status := latest.status,
                gallons := gallons, litres := litres,
                start_time_raw := latest.start_time }
        | none => .ok s

/-- BHyveZoneHistorySensor._update_attrs (sensor.py): the history for the
device is fetched (or [] when absent) and scanned by history_zone_loop. -/
def history_update_attrs (zoneId : Option Int) (hist : Option (List HistoryItem))
    (s : HistSt) : PyResult HistSt :=
  history_zone_loop zoneId (hist.getD []) s

/-- A JSON-ish value in a websocket command payload: a string, an
integer, or an opaque sub-document (the program body payload, carried by
an abstract handle). -/
inductive MsgVal where
  | str : String → MsgVal
  | int : Int → MsgVal
  | obj : Nat → MsgVal
deriving DecidableEq, Repr

/-- Modelled from the spec: const.py is not among the sources; per the
spec the manual-preset command kind string is
"set_manual_preset_runtime". -/
def EVENT_SET_MANUAL_PRESET_TIME : String := "set_manual_preset_runtime"

/-- Modelled from the spec: const.py is not among the sources; per the
spec the rain-delay command kind string is "rain_delay". -/
def EVENT_RAIN_DELAY : String := "rain_delay"

/-- Modelled from the spec: const.py is not among the sources; per the
spec the mode-change command kind string is "change_mode". -/
def EVENT_CHANGE_MODE : String := "change_mode"

/-- BHyveDeviceEntity.set_manual_preset_runtime (entities.py): the
payload sent over the stream for a preset runtime of the given minutes. -/
def set_manual_preset_runtime_payload (device_id : String) (minutes : Int) :
    List (String × MsgVal) :=
  [("event", .str EVENT_SET_MANUAL_PRESET_TIME),
   ("device_id", .str device_id),
   ("seconds", .int (minutes * 60))]

/-- BHyveDeviceEntity._set_rain_delay (entities.py): the payload sent
over the stream for a rain delay of the given hours. -/
def set_rain_delay_payload (device_id : String) (hours : Int) :
    List (String × MsgVal) :=
  [("event", .str EVENT_RAIN_DELAY),
   ("device_id", .str device_id),
   ("delay", .int hours)]

/-- BHyveProgramSwitch._send_program_message (switch.py): the payload
sent over the stream to start a program; the timestamp is the ISO-8601
formatted current time and the program body is carried opaquely. -/
def send_program_payload (device_id : String) (iso_time : String)
    (station_payload : Nat) : List (String × MsgVal) :=
  [("event", .str EVENT_CHANGE_MODE),
   ("mode", .str "manual"),
   ("device_id", .str device_id),
   ("timestamp", .str iso_time),
   ("program", .obj station_payload)]

/-- The default reconnect time of coordinator.py
(DEFAULT_RECONNECT_TIME = 2). -/
def DEFAULT_RECONNECT_TIME : Int := 2

/-- The names defined or imported at module level in coordinator.py:
the imported targets plus the module-level assignments.  A
bare name used in its code resolves only when it is in this list. -/
def coordinatorModuleNames : List String :=
  ["annotations", "asyncio", "TYPE_CHECKING", "Any",
   "EVENT_HOMEASSISTANT_STOP", "callback", "ConfigEntryAuthFailed",
   "DataUpdateCoordinator", "UpdateFailed", "DOMAIN", "LOGGER",
   "BHyveApiData", "DEFAULT_RECONNECT_TIME", "BHyveUpdateCoordinator"]

/-- Whether a bare name appearing in coordinator.py resolves; an
unresolved name raises NameError at its use site. -/
def resolvesInCoordinator (n : String) : Bool :=
  coordinatorModuleNames.contains n

/-- The outcome of the awaited bhyve_client.listen() call inside
client_listen. -/
inductive ListenOutcome where
  | success : ListenOutcome
  | failure : ListenOutcome
deriving DecidableEq, Repr

/-- One invocation of BHyveUpdateCoordinator.client_listen
(coordinator.py).  State is the reconnect_time attribute (none while the
attribute has never been assigned; __init__ does not set it).  On a
listen failure Python evaluates the first except clause, whose exception
name must resolve; on success reconnect_time is set to the default and
the stream runs.  Afterwards, unless Home Assistant is stopping, the code
sleeps reconnect_time seconds, doubles it capped by
MAX_WS_RECONNECT_TIME (a name that must also resolve) and schedules
itself again.  Result: the sleeps performed, the new attribute value, and
whether a reconnect task was scheduled. -/
def client_listen (reconnect_time : Option Int) (outcome : ListenOutcome)
    (stopping : Bool) : PyResult (List Int × Option Int × Bool) :=
  match outcome with
  | .failure =>
    -- except HusqvarnaWSServerHandshakeError: the name is looked up first
    if resolvesInCoordinator "HusqvarnaWSServerHandshakeError" then
      .raise -- unreachable: were it defined, the handler body would run
    else .raise -- NameError while selecting the exception handler
  | .success =>
    let rt := some DEFAULT_RECONNECT_TIME
    if !stopping then
      match rt with
      | none => .raise -- AttributeError reading self.reconnect_time
      | some t =>
        -- await asyncio.sleep(t), then the doubling line evaluates
        -- MAX_WS_RECONNECT_TIME
        if resolvesInCoordinator "MAX_WS_RECONNECT_TIME" then
          .raise -- unreachable: the cap name does not resolve
        else .raise -- NameError: MAX_WS_RECONNECT_TIME is undefined
    else .ok ([], rt, false)

/-- A device record as read by the entity views: every field the cited
_update_attrs implementations access. -/
structure StatusRec where
  flood_alarm_status : Option (List Char)
  temp_alarm_status : Option (List Char)
  rssi : Option Int
  run_mode : Option (List Char)
deriving DecidableEq

/-- The empty status dictionary used as the .get("status", default). -/
def emptyStatus : StatusRec := ⟨none, none, none, none⟩

/-- The device-record fields read by the cited view derivations. -/
structure DeviceRec where
  is_connected : Option Bool
  battery : Option BatteryData
  location_name : Option (List Char)
  auto_shutoff : Option Bool
  status : Option StatusRec
deriving DecidableEq

/-- Observable state of the base device entity (entities.py
BHyveDeviceEntity._update_attrs): only availability. -/
structure BaseSt where
  available : Bool
deriving DecidableEq

/-- BHyveDeviceEntity._update_attrs (entities.py line 66): availability
is device.get("is_connected", False). -/
def base_update_attrs (d : DeviceRec) (s : BaseSt) : BaseSt :=
  { s with available := d.is_connected.getD false }

/-- Observable state of the battery sensor. -/
structure BatterySt where
  available : Bool
  native : Option ℚ
deriving DecidableEq

/-- BHyveBatterySensor._update_attrs (sensor.py lines 138-143): the
native value is the parsed battery level when the battery field is
present, None otherwise, and then the base update runs. -/
def battery_update_attrs (d : DeviceRec) (s : BatterySt) : BatterySt :=
  let native :=
    match d.battery with
    | some b => parse_battery_level b
    | none => none
  { s with native := native, available := d.is_connected.getD false }

/-- Observable state of the flood binary sensor. -/
structure FloodSt where
  available : Bool
  state : Bool
  location : Option (List Char)
  shutoff : Option Bool
  rssi : Option Int
deriving DecidableEq

/-- BHyveFloodSensor._update_attrs (binary_sensor.py lines 93-99): the
alarm state, the location/shutoff/rssi attributes, then the base
update. -/
def flood_update_attrs (d : DeviceRec) (s : FloodSt) : FloodSt :=
  let status := d.status.getD emptyStatus
  { s with
    state := flood_alarm_state status.flood_alarm_status,
    location := d.location_name,
    shutoff := d.auto_shutoff,
    rssi := status.rssi,
    available := d.is_connected.getD false }

lemma minutesPerDay_pos : (0 : Int) < minutesPerDay := by norm_num [minutesPerDay]

/-- An evLoop run with a present interval can never raise: the only raise
site of the loop body is the missing-interval step. -/
lemma evLoop_ne_raise (dv now : Int) :
    ∀ (fuel : Nat) (ist : Int) (e : Option Int),
      evLoop (some dv) now fuel ist e ≠ .raise := by
  intro fuel
  induction fuel with
  | zero =>
    intro ist e
    simp only [evLoop]
    split <;> simp
  | succ n ih =>
    intro ist e
    simp only [evLoop]
    split
    · split
      · simp
      · exact ih _ _
    · simp

/-- Once the cursor is past a step whose window contains now, the loop
returns that step: walking k further steps first, provided no earlier
step has a window containing now. -/
lemma evLoop_current (dv now : Int) (hdv : 0 < dv) :
    ∀ (k : Nat) (fuel : Nat) (ist : Int) (e : Option Int),
      (ist + k * dv ≤ now ∧ now < ist + k * dv + minutesPerDay) →
      (∀ j : Nat, j < k → ¬(ist + j * dv ≤ now ∧ now < ist + j * dv + minutesPerDay)) →
      k < fuel →
      evLoop (some dv) now fuel ist e = .ok (some (ist + k * dv)) := by
  intro k
  induction k with
  | zero =>
    intro fuel ist e hwin _ hfuel
    simp only [Nat.cast_zero, zero_mul, add_zero] at hwin ⊢
    match fuel, hfuel with
    | n + 1, _ =>
      simp only [evLoop]
      have hday := minutesPerDay_pos
      rw [if_pos (by linarith [hwin.1]), if_pos hwin]
  | succ k ih =>
    intro fuel ist e hwin hbef hfuel
    have hday := minutesPerDay_pos
    have hstep : (0:Int) ≤ (k+1 : Nat) * dv := by positivity
    have hcast : ((k+1 : Nat) : Int) * dv = ist + (k+1 : Nat) * dv - ist := by ring
    match fuel, hfuel with
    | n + 1, hfuel =>
      simp only [evLoop]
      have hle : ist ≤ now + 60 * minutesPerDay := by
        have h1 : ist ≤ ist + (k+1 : Nat) * dv := by linarith
        linarith [hwin.1]
      rw [if_pos hle]
      have hnc := hbef 0 (Nat.succ_pos k)
      simp only [Nat.cast_zero, zero_mul, add_zero] at hnc
      rw [if_neg hnc]
      have harg : ist + dv + k * dv = ist + (k+1 : Nat) * dv := by push_cast; ring
      have := ih n (ist + dv)
        (if now < ist then
            match e with
            | none => some ist
            | some e0 => if ist < e0 then some ist else some e0
          else e)
        (by rw [harg]; exact hwin)
        (by
          intro j hj
          have := hbef (j + 1) (by omega)
          have harg2 : ist + dv + j * dv = ist + (j+1 : Nat) * dv := by push_cast; ring
          rw [harg2]; exact this)
        (by omega)
      rw [harg] at this
      exact this

/-- Once an earliest upcoming start e is tracked and the cursor has moved
past it, later iterations never replace it, and it is returned when the
loop passes the horizon. -/
lemma evLoop_keep (dv now e : Int) (hdv : 0 < dv) :
    ∀ (fuel : Nat) (ist : Int),
      now < e → e ≤ ist →
      now + 60 * minutesPerDay < ist + fuel * dv →
      evLoop (some dv) now fuel ist (some e) = .ok (some e) := by
  intro fuel
  induction fuel with
  | zero =>
    intro ist h1 h2 hf
    simp only [Nat.cast_zero, zero_mul, add_zero] at hf
    simp only [evLoop]
    rw [if_neg (by linarith)]
  | succ n ih =>
    intro ist h1 h2 hf
    have hday := minutesPerDay_pos
    simp only [evLoop]
    by_cases hcond : ist ≤ now + 60 * minutesPerDay
    · rw [if_pos hcond]
      rw [if_neg (by rintro ⟨hl, _⟩; linarith)]
      rw [if_pos (by linarith : now < ist)]
      rw [if_neg (by linarith : ¬ ist < e)]
      apply ih (ist + dv) h1 (by linarith)
      have : ((n + 1 : Nat) : Int) * dv = dv + (n : Nat) * dv := by push_cast; ring
      linarith [hf, this.symm.le, this.le]
    · rw [if_neg hcond]

/-- If the cursor has passed now and is still within the horizon, it is
the earliest upcoming start and the loop returns it. -/
lemma evLoop_firstAfter (dv now : Int) (hdv : 0 < dv) :
    ∀ (fuel : Nat) (ist : Int),
      now < ist → ist ≤ now + 60 * minutesPerDay →
      now + 60 * minutesPerDay < ist + fuel * dv →
      evLoop (some dv) now fuel ist none = .ok (some ist) := by
  intro fuel ist h1 h2 hf
  match fuel with
  | 0 =>
    exfalso
    simp only [Nat.cast_zero, zero_mul, add_zero] at hf
    linarith
  | n + 1 =>
    have hday := minutesPerDay_pos
    simp only [evLoop]
    rw [if_pos h2]
    rw [if_neg (by rintro ⟨hl, _⟩; linarith)]
    rw [if_pos h1]
    apply evLoop_keep dv now ist hdv n (ist + dv) h1 (by linarith)
    have : ((n + 1 : Nat) : Int) * dv = dv + (n : Nat) * dv := by push_cast; ring
    linarith [hf, this.le]

/-- If no step from the cursor onward has a window containing now and
every step is either before now or past the horizon, the loop finds
nothing. -/
lemma evLoop_nothing (dv now : Int) (hdv : 0 < dv) :
    ∀ (fuel : Nat) (ist : Int),
      (∀ j : Nat, ¬(ist + j * dv ≤ now ∧ now < ist + j * dv + minutesPerDay)) →
      (∀ j : Nat, ist + j * dv ≤ now ∨ now + 60 * minutesPerDay < ist + j * dv) →
      now + 60 * minutesPerDay < ist + fuel * dv →
      evLoop (some dv) now fuel ist none = .ok none := by
  intro fuel
  induction fuel with
  | zero =>
    intro ist _ _ hf
    simp only [Nat.cast_zero, zero_mul, add_zero] at hf
    simp only [evLoop]
    rw [if_neg (by linarith)]
  | succ n ih =>
    intro ist hnc hout hf
    have hday := minutesPerDay_pos
    simp only [evLoop]
    by_cases hcond : ist ≤ now + 60 * minutesPerDay
    · rw [if_pos hcond]
      have h0 := hnc 0
      simp only [Nat.cast_zero, zero_mul, add_zero] at h0
      rw [if_neg h0]
      have hbefore : ist ≤ now := by
        rcases hout 0 with h | h
        · simpa using h
        · simp only [Nat.cast_zero, zero_mul, add_zero] at h; linarith
      rw [if_neg (by linarith : ¬ now < ist)]
      apply ih (ist + dv)
      · intro j
        have := hnc (j + 1)
        have harg : ist + dv + j * dv = ist + (j+1 : Nat) * dv := by push_cast; ring
        rw [harg]; exact this
      · intro j
        have := hout (j + 1)
        have harg : ist + dv + j * dv = ist + (j+1 : Nat) * dv := by push_cast; ring
        rw [harg]; exact this
      · have : ((n + 1 : Nat) : Int) * dv = dv + (n : Nat) * dv := by push_cast; ring
        linarith [hf, this.le]
    · rw [if_neg hcond]

/-- If no step from the cursor onward has a window containing now, but
some index k steps to the first start after now and that start is within
the horizon, the loop returns it. -/
lemma evLoop_nextFound (dv now : Int) (hdv : 0 < dv) :
    ∀ (k : Nat) (fuel : Nat) (ist : Int),
      (∀ j : Nat, ¬(ist + j * dv ≤ now ∧ now < ist + j * dv + minutesPerDay)) →
      now < ist + k * dv →
      (∀ j : Nat, j < k → ist + j * dv ≤ now) →
      ist + k * dv ≤ now + 60 * minutesPerDay →
      now + 60 * minutesPerDay < ist + fuel * dv →
      evLoop (some dv) now fuel ist none = .ok (some (ist + k * dv)) := by
  intro k
  induction k with
  | zero =>
    intro fuel ist _ hafter _ hhor hf
    simp only [Nat.cast_zero, zero_mul, add_zero] at hafter hhor ⊢
    exact evLoop_firstAfter dv now hdv fuel ist hafter hhor hf
  | succ k ih =>
    intro fuel ist hnc hafter hbef hhor hf
    have hday := minutesPerDay_pos
    have hist_le : ist ≤ now := by
      have := hbef 0 (Nat.succ_pos k)
      simpa using this
    match fuel with
    | 0 =>
      exfalso
      simp only [Nat.cast_zero, zero_mul, add_zero] at hf
      linarith
    | n + 1 =>
      simp only [evLoop]
      rw [if_pos (by linarith)]
      have h0 := hnc 0
      simp only [Nat.cast_zero, zero_mul, add_zero] at h0
      rw [if_neg h0]
      rw [if_neg (by linarith : ¬ now < ist)]
      have harg : ∀ j : Nat, ist + dv + j * dv = ist + (j+1 : Nat) * dv := by
        intro j; push_cast; ring
      have := ih n (ist + dv)
        (by intro j; rw [harg j]; exact hnc (j + 1))
        (by rw [harg k]; exact hafter)
        (by intro j hj; rw [harg j]; exact hbef (j + 1) (by omega))
        (by rw [harg k]; exact hhor)
        (by
          have hc : ((n + 1 : Nat) : Int) * dv = dv + (n : Nat) * dv := by push_cast; ring
          linarith [hf, hc.le])
      rw [harg k] at this
      exact this

/-- loopFuel outlasts the loop: the anchor plus loopFuel steps of size dv
passes the horizon. -/
lemma loopFuel_spec (a thr dv : Int) (hdv : 0 < dv) :
    thr < a + (loopFuel a thr dv : Int) * dv := by
  unfold loopFuel
  have hDeq : ((dv.toNat : Int)) = dv := Int.toNat_of_nonneg hdv.le
  have hDpos : 0 < dv.toNat := by omega
  set T := (thr - a).toNat with hT
  have hTle : thr - a ≤ (T : Int) := Int.self_le_toNat _
  have hdm := Nat.div_add_mod T dv.toNat
  have hm := Nat.mod_lt T hDpos
  have hNat : T < (T / dv.toNat + 1) * dv.toNat := by
    calc T = dv.toNat * (T / dv.toNat) + T % dv.toNat := hdm.symm
    _ < dv.toNat * (T / dv.toNat) + dv.toNat := by omega
    _ = (T / dv.toNat + 1) * dv.toNat := by ring
  have hInt : (T : Int) < ((T / dv.toNat + 1 : Nat) : Int) * dv := by
    rw [← hDeq]
    exact_mod_cast hNat
  linarith

/-- A step that stays within the horizon has index below loopFuel. -/
lemma step_lt_loopFuel (a thr dv : Int) (hdv : 0 < dv) (k : Nat)
    (h : a + k * dv ≤ thr) : k < loopFuel a thr dv := by
  unfold loopFuel
  have hDeq : ((dv.toNat : Int)) = dv := Int.toNat_of_nonneg hdv.le
  have hDpos : 0 < dv.toNat := by omega
  have hk0 : (0 : Int) ≤ (k : Int) * dv := by positivity
  have hTeq : ((thr - a).toNat : Int) = thr - a :=
    Int.toNat_of_nonneg (by linarith)
  have hmul : ((k * dv.toNat : Nat) : Int) ≤ ((thr - a).toNat : Int) := by
    push_cast
    rw [hDeq, hTeq]
    linarith
  have : k * dv.toNat ≤ (thr - a).toNat := by exact_mod_cast hmul
  have := (Nat.le_div_iff_mul_le hDpos).mpr this
  omega

/-- Steps with a positive interval are monotone in the index. -/
lemma step_mono (a dv : Int) (hdv : 0 < dv) {i j : Nat} (h : i ≤ j) :
    a + i * dv ≤ a + j * dv := by
  have : (i : Int) ≤ (j : Int) := by exact_mod_cast h
  nlinarith

/-- A 24-hour window of some interval step contains now exactly when now
is at or past the anchor and the elapsed time modulo the interval is
under one day (interval at least one day). -/
lemma window_exists_iff (a now dv : Int) (hday : minutesPerDay ≤ dv) :
    (∃ j : Nat, a + j * dv ≤ now ∧ now < a + j * dv + minutesPerDay) ↔
      (a ≤ now ∧ (now - a) % dv < minutesPerDay) := by
  have hdvpos : 0 < dv := lt_of_lt_of_le minutesPerDay_pos hday
  constructor
  · rintro ⟨j, h1, h2⟩
    have hj0 : (0 : Int) ≤ (j : Int) * dv := by positivity
    refine ⟨by linarith, ?_⟩
    have hsplit : (now - a) % dv = (now - a - j * dv) % dv := by
      conv_lhs => rw [show now - a = now - a - (j : Int) * dv + (j : Int) * dv by ring]
      rw [Int.add_mul_emod_self]
    rw [hsplit, Int.emod_eq_of_lt (by linarith) (by linarith)]
    linarith
  · rintro ⟨hle, hmod⟩
    set q := (now - a) / dv with hq
    set r := (now - a) % dv with hr
    have hdm : dv * q + r = now - a := Int.ediv_add_emod (now - a) dv
    have hr0 : 0 ≤ r := Int.emod_nonneg (now - a) (ne_of_gt hdvpos)
    have hq0 : 0 ≤ q := Int.ediv_nonneg (by linarith) hdvpos.le
    have hqeq : ((q.toNat : Nat) : Int) = q := Int.toNat_of_nonneg hq0
    refine ⟨q.toNat, ?_, ?_⟩
    · rw [hqeq]; linarith
    · rw [hqeq]; linarith

/-- There is an index of the first step strictly after now, when the
anchor is not after now. -/
lemma firstAfter_spec (a now dv : Int) (hdvpos : 0 < dv) (hle : a ≤ now) :
    ∃ k : Nat, now < a + k * dv ∧ ∀ j : Nat, j < k → a + j * dv ≤ now := by
  set q := (now - a) / dv with hq
  set r := (now - a) % dv with hr
  have hdm : dv * q + r = now - a := Int.ediv_add_emod (now - a) dv
  have hr0 : 0 ≤ r := Int.emod_nonneg (now - a) (ne_of_gt hdvpos)
  have hrlt : r < dv := Int.emod_lt_of_pos (now - a) hdvpos
  have hq0 : 0 ≤ q := Int.ediv_nonneg (by linarith) hdvpos.le
  have hqeq : ((q.toNat : Nat) : Int) = q := Int.toNat_of_nonneg hq0
  refine ⟨q.toNat + 1, ?_, ?_⟩
  · have : ((q.toNat + 1 : Nat) : Int) * dv = q * dv + dv := by
      push_cast
      rw [hqeq]
      ring
    rw [this]
    linarith
  · intro j hj
    have hjle : (j : Int) ≤ q := by
      have : (j : Int) ≤ ((q.toNat : Nat) : Int) := by exact_mod_cast Nat.lt_succ_iff.mp hj
      rw [hqeq] at this
      exact this
    have : (j : Int) * dv ≤ q * dv := by
      apply mul_le_mul_of_nonneg_right hjle hdvpos.le
    linarith

/-- A well-formed enabled program reduces calendar_event to the loop with
a positive step and sufficient fuel. -/
lemma calendar_event_run (n a now : Int) (hn : 1 ≤ n) :
    calendar_event ⟨true, true, some ⟨some n, some a⟩⟩ now =
      evLoop (some (n * minutesPerDay)) now
        (loopFuel a (now + 60 * minutesPerDay) (n * minutesPerDay)) a none := by
  have hdv : 0 < n * minutesPerDay := by
    have := minutesPerDay_pos
    nlinarith
  simp [calendar_event, orbit_time_to_local_time, progFuel, hdv]

/-- The interval step is at least one day for an interval of at least one
day. -/
lemma day_le_step (n : Int) (hn : 1 ≤ n) : minutesPerDay ≤ n * minutesPerDay := by
  nlinarith [minutesPerDay_pos]

/-- Windows of distinct steps are disjoint (step at least a day), so a
window containing now is automatically the first one. -/
lemma window_first (a now dv : Int) (hday : minutesPerDay ≤ dv) (k : Nat)
    (hwin : a + k * dv ≤ now ∧ now < a + k * dv + minutesPerDay) :
    ∀ j : Nat, j < k → ¬(a + j * dv ≤ now ∧ now < a + j * dv + minutesPerDay) := by
  have hdvpos : 0 < dv := lt_of_lt_of_le minutesPerDay_pos hday
  rintro j hj ⟨h1, h2⟩
  have hsucc : (j : Int) + 1 ≤ (k : Int) := by exact_mod_cast hj
  have : ((j : Int) + 1) * dv ≤ (k : Int) * dv :=
    mul_le_mul_of_nonneg_right hsucc hdvpos.le
  have : a + (j : Int) * dv + minutesPerDay ≤ a + (k : Int) * dv := by nlinarith
  linarith [hwin.1]

/-- If some step window contains now, calendar_event returns that step
immediately. -/
lemma calendar_event_current (n a now : Int) (hn : 1 ≤ n) (k : Nat)
    (hwin : a + k * (n * minutesPerDay) ≤ now ∧
      now < a + k * (n * minutesPerDay) + minutesPerDay) :
    calendar_event ⟨true, true, some ⟨some n, some a⟩⟩ now =
      .ok (some (a + k * (n * minutesPerDay))) := by
  have hday := day_le_step n hn
  have hdvpos : 0 < n * minutesPerDay := lt_of_lt_of_le minutesPerDay_pos hday
  rw [calendar_event_run n a now hn]
  apply evLoop_current _ _ hdvpos k _ _ _ hwin (window_first a now _ hday k hwin)
  apply step_lt_loopFuel _ _ _ hdvpos
  have := minutesPerDay_pos
  linarith [hwin.1]

/-- If no step window contains now but some step lands strictly after now
within the horizon, calendar_event returns the earliest such step. -/
lemma calendar_event_next (n a now : Int) (hn : 1 ≤ n)
    (hnc : ∀ k : Nat, ¬(a + k * (n * minutesPerDay) ≤ now ∧
      now < a + k * (n * minutesPerDay) + minutesPerDay))
    (hex : ∃ k : Nat, now < a + k * (n * minutesPerDay) ∧
      a + k * (n * minutesPerDay) ≤ now + 60 * minutesPerDay) :
    ∃ s, calendar_event ⟨true, true, some ⟨some n, some a⟩⟩ now = .ok (some s) ∧
      now < s ∧ s ≤ now + 60 * minutesPerDay ∧
      (∃ k : Nat, s = a + k * (n * minutesPerDay)) ∧
      ∀ j : Nat, now < a + j * (n * minutesPerDay) → s ≤ a + j * (n * minutesPerDay) := by
  have hday := day_le_step n hn
  have hdvpos : 0 < n * minutesPerDay := lt_of_lt_of_le minutesPerDay_pos hday
  set dv := n * minutesPerDay with hdv
  obtain ⟨k1, hk1a, hk1b⟩ := hex
  -- the first index whose step is strictly after now
  obtain ⟨k0, hk0a, hk0b⟩ :
      ∃ k : Nat, now < a + k * dv ∧ ∀ j : Nat, j < k → a + j * dv ≤ now := by
    by_cases hle : a ≤ now
    · exact firstAfter_spec a now dv hdvpos hle
    · refine ⟨0, ?_, ?_⟩
      · simpa using by linarith
      · intro j hj; omega
  have hmin : ∀ j : Nat, now < a + j * dv → a + k0 * dv ≤ a + j * dv := by
    intro j hj
    by_cases h : j < k0
    · exact absurd hj (by linarith [hk0b j h])
    · exact step_mono a dv hdvpos (by omega)
  have hk0hor : a + k0 * dv ≤ now + 60 * minutesPerDay :=
    le_trans (hmin k1 hk1a) hk1b
  refine ⟨a + k0 * dv, ?_, hk0a, hk0hor, ⟨k0, rfl⟩, hmin⟩
  rw [calendar_event_run n a now hn]
  exact evLoop_nextFound dv now hdvpos k0 _ a hnc hk0a hk0b hk0hor
    (loopFuel_spec a (now + 60 * minutesPerDay) dv hdvpos)

/-- If no step window contains now and no step lands strictly after now
within the horizon, calendar_event returns null (not an error). -/
lemma calendar_event_none (n a now : Int) (hn : 1 ≤ n)
    (hnc : ∀ k : Nat, ¬(a + k * (n * minutesPerDay) ≤ now ∧
      now < a + k * (n * minutesPerDay) + minutesPerDay))
    (hnone : ∀ k : Nat, ¬(now < a + k * (n * minutesPerDay) ∧
      a + k * (n * minutesPerDay) ≤ now + 60 * minutesPerDay)) :
    calendar_event ⟨true, true, some ⟨some n, some a⟩⟩ now = .ok none := by
  have hday := day_le_step n hn
  have hdvpos : 0 < n * minutesPerDay := lt_of_lt_of_le minutesPerDay_pos hday
  rw [calendar_event_run n a now hn]
  apply evLoop_nothing _ _ hdvpos _ _ hnc
  · intro j
    rcases not_and_or.mp (hnone j) with h | h
    · left; linarith [not_lt.mp h]
    · right; linarith [not_le.mp h]
  · exact loopFuel_spec a (now + 60 * minutesPerDay) _ hdvpos

/-- The result of calendar_event is always a normal value for a
well-formed enabled program. -/
lemma calendar_event_total (n a now : Int) (hn : 1 ≤ n) :
    ∃ o, calendar_event ⟨true, true, some ⟨some n, some a⟩⟩ now = .ok o := by
  have hday := day_le_step n hn
  set dv := n * minutesPerDay with hdv
  by_cases hcur : ∃ k : Nat, a + k * dv ≤ now ∧ now < a + k * dv + minutesPerDay
  · obtain ⟨k, hk⟩ := hcur
    exact ⟨some (a + k * dv), calendar_event_current n a now hn k hk⟩
  · push_neg at hcur
    have hnc : ∀ k : Nat, ¬(a + k * dv ≤ now ∧ now < a + k * dv + minutesPerDay) := by
      intro k ⟨h1, h2⟩; exact absurd h2 (not_lt.mpr (hcur k h1))
    by_cases hex : ∃ k : Nat, now < a + k * dv ∧ a + k * dv ≤ now + 60 * minutesPerDay
    · obtain ⟨s, hs, _⟩ := calendar_event_next n a now hn hnc hex
      exact ⟨some s, hs⟩
    · push_neg at hex
      refine ⟨none, calendar_event_none n a now hn hnc ?_⟩
      intro k ⟨h1, h2⟩
      exact absurd h2 (not_le.mpr (hex k h1))

/-- A current occurrence is returned exactly when the elapsed time since
the anchor, modulo the interval, is under one day. -/
lemma calendar_event_current_iff (n a now : Int) (hn : 1 ≤ n) :
    (∃ s, calendar_event ⟨true, true, some ⟨some n, some a⟩⟩ now = .ok (some s) ∧
        s ≤ now ∧ now < s + minutesPerDay) ↔
      (a ≤ now ∧ (now - a) % (n * minutesPerDay) < minutesPerDay) := by
  have hday := day_le_step n hn
  set dv := n * minutesPerDay with hdv
  constructor
  · rintro ⟨s, hok, hs1, hs2⟩
    by_contra hno
    have hnowin := (not_iff_not.mpr (window_exists_iff a now dv hday)).mpr hno
    push_neg at hnowin
    have hnc : ∀ k : Nat, ¬(a + k * dv ≤ now ∧ now < a + k * dv + minutesPerDay) := by
      intro k ⟨h1, h2⟩; exact absurd h2 (not_lt.mpr (hnowin k h1))
    by_cases hex : ∃ k : Nat, now < a + k * dv ∧ a + k * dv ≤ now + 60 * minutesPerDay
    · obtain ⟨s1, hok1, hafter, _⟩ := calendar_event_next n a now hn hnc hex
      rw [hok] at hok1
      have : s = s1 := by
        injection hok1 with h
        injection h
      linarith [this ▸ hafter]
    · push_neg at hex
      have := calendar_event_none n a now hn hnc
        (by intro k ⟨h1, h2⟩; exact absurd h2 (not_le.mpr (hex k h1)))
      rw [hok] at this
      exact Option.noConfusion (PyResult.ok.inj this)
  · intro hrhs
    obtain ⟨j, hj⟩ := (window_exists_iff a now dv hday).mpr hrhs
    exact ⟨a + j * dv, calendar_event_current n a now hn j hj, hj.1, hj.2⟩

/-- The full specification of the current/next-occurrence computation for
an enabled program with interval n days and anchor a: totality, immediate
return of the occurrence whose 24-hour window contains now, otherwise the
earliest step strictly after now within the 60-day horizon, null when
nothing is found, no occurrence for disabled programs, and the
modulo characterisation of current occurrences with its 10-days-ago /
7-day-interval instance. -/
def EventSpec (n a now : Int) : Prop :=
  (∃ o, calendar_event ⟨true, true, some ⟨some n, some a⟩⟩ now = PyResult.ok o)
  ∧ (∀ k : Nat,
      a + k * (n * minutesPerDay) ≤ now ∧
        now < a + k * (n * minutesPerDay) + minutesPerDay →
      calendar_event ⟨true, true, some ⟨some n, some a⟩⟩ now =
        PyResult.ok (some (a + k * (n * minutesPerDay))))
  ∧ ((∀ k : Nat, ¬(a + k * (n * minutesPerDay) ≤ now ∧
        now < a + k * (n * minutesPerDay) + minutesPerDay)) →
     (∃ k : Nat, now < a + k * (n * minutesPerDay) ∧
        a + k * (n * minutesPerDay) ≤ now + 60 * minutesPerDay) →
     ∃ s, calendar_event ⟨true, true, some ⟨some n, some a⟩⟩ now =
         PyResult.ok (some s) ∧
       now < s ∧ s ≤ now + 60 * minutesPerDay ∧
       (∃ k : Nat, s = a + k * (n * minutesPerDay)) ∧
       ∀ j : Nat, now < a + j * (n * minutesPerDay) →
         s ≤ a + j * (n * minutesPerDay))
  ∧ ((∀ k : Nat, ¬(a + k * (n * minutesPerDay) ≤ now ∧
        now < a + k * (n * minutesPerDay) + minutesPerDay)) →
     (∀ k : Nat, ¬(now < a + k * (n * minutesPerDay) ∧
        a + k * (n * minutesPerDay) ≤ now + 60 * minutesPerDay)) →
     calendar_event ⟨true, true, some ⟨some n, some a⟩⟩ now = PyResult.ok none)
  ∧ (∀ (b : Bool) (f : Option Frequency) (t : Int),
      calendar_event ⟨false, b, f⟩ t = PyResult.ok none)
  ∧ ((∃ s, calendar_event ⟨true, true, some ⟨some n, some a⟩⟩ now =
        PyResult.ok (some s) ∧ s ≤ now ∧ now < s + minutesPerDay) ↔
      (a ≤ now ∧ (now - a) % (n * minutesPerDay) < minutesPerDay))
  ∧ (∀ t : Int,
      (∃ s, calendar_event
          ⟨true, true, some ⟨some 7, some (t - 10 * minutesPerDay)⟩⟩ t =
          PyResult.ok (some s) ∧ s ≤ t ∧ t < s + minutesPerDay) ↔
        (t - (t - 10 * minutesPerDay)) % (7 * minutesPerDay) < minutesPerDay)

/-- C1: for every enabled timer program with an anchor start timestamp
and an interval of at least one day, the current/next-occurrence
computation walks forward from the anchor in interval-day steps and
returns immediately the occurrence whose 24-hour window contains now;
failing that it returns the earliest step strictly after now within a
60-day lookahead horizon; a disabled program never produces an
occurrence; no input within the horizon yields an error rather than a
value; and a current occurrence exists iff (now - anchor) mod the
interval is less than one day — in particular for anchor 10 days before
now and interval 7 days. -/
theorem calendar_event_occurrence_correct (n a now : Int) (hn : 1 ≤ n) :
    EventSpec n a now := by
  refine ⟨calendar_event_total n a now hn,
    fun k hk => calendar_event_current n a now hn k hk,
    fun hnc hex => calendar_event_next n a now hn hnc hex,
    fun hnc hnone => calendar_event_none n a now hn hnc hnone,
    ?_,
    calendar_event_current_iff n a now hn,
    ?_⟩
  · intro b f t
    simp [calendar_event]
  · intro t
    have h7 : (1 : Int) ≤ 7 := by norm_num
    have := calendar_event_current_iff 7 (t - 10 * minutesPerDay) t h7
    rw [this]
    have hday := minutesPerDay_pos
    constructor
    · rintro ⟨_, h⟩
      exact h
    · intro h
      exact ⟨by linarith, h⟩

/-- Witness for C1 at interval 7 days, anchor 10 days before now = 0. -/
theorem calendar_event_occurrence_correct_witness :
    (1 : Int) ≤ 7 ∧ EventSpec 7 (-14400) 0 :=
  ⟨by norm_num, calendar_event_occurrence_correct 7 (-14400) 0 (by norm_num)⟩

/-- Beyond the horizon, no step is enumerated. -/
lemma numSteps_of_gt (dv cur thr : Int) (h : ¬cur ≤ thr) :
    numSteps dv cur thr = 0 := by
  simp [numSteps, h]

/-- Within the horizon, the enumeration has one more step than from the
next cursor. -/
lemma numSteps_succ (dv cur thr : Int) (hdv : 0 < dv) (h : cur ≤ thr) :
    numSteps dv cur thr = numSteps dv (cur + dv) thr + 1 := by
  have hDeq : ((dv.toNat : Int)) = dv := Int.toNat_of_nonneg hdv.le
  have hDpos : 0 < dv.toNat := by omega
  by_cases h2 : cur + dv ≤ thr
  · have hsum : (thr - cur).toNat = (thr - (cur + dv)).toNat + dv.toNat := by omega
    simp only [numSteps, if_pos h, if_pos h2, hsum]
    rw [Nat.add_div_right _ hDpos]
  · have hlt : (thr - cur).toNat < dv.toNat := by omega
    simp only [numSteps, if_pos h, if_neg h2]
    rw [Nat.div_eq_of_lt hlt]

/-- Within the horizon, the enumeration is the head occurrence followed
by the enumeration from the next cursor. -/
lemma stepsList_cons (dv cur thr : Int) (hdv : 0 < dv) (h : cur ≤ thr) :
    stepsList dv cur thr =
      (dateOf cur, dateOf (cur + minutesPerDay)) :: stepsList dv (cur + dv) thr := by
  unfold stepsList
  rw [numSteps_succ dv cur thr hdv h, List.range_succ_eq_map]
  rw [List.map_cons, List.map_map]
  simp only [Nat.cast_zero, zero_mul, add_zero]
  congr 1
  apply List.map_congr_left
  intro k _
  simp only [Function.comp_apply]
  have h1 : cur + (k.succ : Int) * dv = cur + dv + k * dv := by push_cast; ring
  rw [h1]

/-- Past the horizon, the enumeration is empty. -/
lemma stepsList_nil (dv cur thr : Int) (h : ¬cur ≤ thr) :
    stepsList dv cur thr = [] := by
  simp [stepsList, numSteps_of_gt dv cur thr h]

/-- The enumeration loop of async_get_events, run with sufficient fuel,
appends to the accumulator exactly the horizon-capped step enumeration
filtered by rain-delay suppression. -/
lemma getEventsLoop_eq (dv thr : Int) (supp : Option (Int × Int)) (hdv : 0 < dv) :
    ∀ (fuel : Nat) (cur : Int) (acc : List (Int × Int)),
      thr < cur + fuel * dv →
      getEventsLoop (some dv) thr supp fuel cur acc =
        .ok (acc ++ (stepsList dv cur thr).filter (fun pr => keepOcc supp pr.1)) := by
  intro fuel
  induction fuel with
  | zero =>
    intro cur acc hf
    simp only [Nat.cast_zero, zero_mul, add_zero] at hf
    have h : ¬cur ≤ thr := by linarith
    simp only [getEventsLoop, if_neg h, stepsList_nil dv cur thr h,
      List.filter_nil, List.append_nil]
  | succ n ih =>
    intro cur acc hf
    by_cases h : cur ≤ thr
    · simp only [getEventsLoop, if_pos h]
      rw [ih (cur + dv) _ (by
        have hc : ((n + 1 : Nat) : Int) * dv = dv + (n : Nat) * dv := by push_cast; ring
        linarith [hf, hc.le])]
      rw [stepsList_cons dv cur thr hdv h]
      rw [List.filter_cons]
      by_cases hkeep : keepOcc supp (dateOf cur) = true
      · simp only [hkeep, if_pos, if_true]
        rw [List.append_cons, List.append_assoc]
        simp
      · have hkeep' : keepOcc supp (dateOf cur) = false := by
          revert hkeep; cases keepOcc supp (dateOf cur) <;> simp
        simp [hkeep']
    · simp only [getEventsLoop, if_neg h, stepsList_nil dv cur thr h,
        List.filter_nil, List.append_nil]

/-- A whole-day window: the end date of an occurrence is the day after
its start date. -/
lemma dateOf_add_day (x : Int) : dateOf (x + minutesPerDay) = dateOf x + 1 := by
  unfold dateOf minutesPerDay
  rw [show x + 1440 = x + 1 * 1440 by ring]
  rw [Int.add_mul_ediv_right x 1 (by norm_num)]

/-- The enumeration length counts exactly the steps within the horizon. -/
lemma lt_numSteps_iff (dv cur thr : Int) (hdv : 0 < dv) (k : Nat) :
    k < numSteps dv cur thr ↔ cur + k * dv ≤ thr := by
  have hDeq : ((dv.toNat : Int)) = dv := Int.toNat_of_nonneg hdv.le
  have hDpos : 0 < dv.toNat := by omega
  by_cases h : cur ≤ thr
  · constructor
    · intro hk
      simp only [numSteps, if_pos h] at hk
      have hk2 : k ≤ (thr - cur).toNat / dv.toNat := by omega
      have := (Nat.le_div_iff_mul_le hDpos).mp hk2
      have hcast : ((k * dv.toNat : Nat) : Int) ≤ (((thr - cur).toNat : Nat) : Int) := by
        exact_mod_cast this
      push_cast at hcast
      rw [hDeq] at hcast
      have hTeq : (((thr - cur).toNat : Nat) : Int) = thr - cur :=
        Int.toNat_of_nonneg (by linarith)
      rw [hTeq] at hcast
      linarith
    · intro hk
      have := step_lt_loopFuel cur thr dv hdv k hk
      simpa [numSteps, if_pos h, loopFuel] using this
  · simp only [numSteps, if_neg h]
    constructor
    · omega
    · intro hk
      exfalso
      have hk0 : (0 : Int) ≤ (k : Int) * dv := by positivity
      exact h (by linarith)

/-- For an enabled well-formed program with no stored rain-delay status,
async_get_events reduces to the loop with no suppression window. -/
lemma async_get_events_run_nosupp (n a now sd ed : Int) (st : CalEntityState)
    (hn : 1 ≤ n) (hst : st.statusTruthy = false) :
    async_get_events ⟨true, true, some ⟨some n, some a⟩⟩ st now sd ed =
      getEventsLoop (some (n * minutesPerDay)) (now + 60 * minutesPerDay) none
        (loopFuel a (now + 60 * minutesPerDay) (n * minutesPerDay)) a [] := by
  have hdv : 0 < n * minutesPerDay := by nlinarith [minutesPerDay_pos]
  simp [async_get_events, orbit_time_to_local_time, progFuel, hdv, hst]

/-- For an enabled well-formed program with an active rain delay,
async_get_events reduces to the loop with the delay window. -/
lemma async_get_events_run_supp (n a now sd ed rs h : Int) (hn : 1 ≤ n) :
    async_get_events ⟨true, true, some ⟨some n, some a⟩⟩ ⟨true, some rs, h⟩ now sd ed =
      getEventsLoop (some (n * minutesPerDay)) (now + 60 * minutesPerDay)
        (some (rs, rs + h * minutesPerHour))
        (loopFuel a (now + 60 * minutesPerDay) (n * minutesPerDay)) a [] := by
  have hdv : 0 < n * minutesPerDay := by nlinarith [minutesPerDay_pos]
  simp [async_get_events, orbit_time_to_local_time, progFuel, hdv]

/-- Without an active rain delay, the emitted list is exactly the
horizon-capped step enumeration. -/
lemma async_get_events_nosupp_eq (n a now sd ed : Int) (st : CalEntityState)
    (hn : 1 ≤ n) (hst : st.statusTruthy = false) :
    async_get_events ⟨true, true, some ⟨some n, some a⟩⟩ st now sd ed =
      PyResult.ok (stepsList (n * minutesPerDay) a (now + 60 * minutesPerDay)) := by
  have hdv : 0 < n * minutesPerDay := by nlinarith [minutesPerDay_pos]
  rw [async_get_events_run_nosupp n a now sd ed st hn hst]
  rw [getEventsLoop_eq _ _ none hdv _ _ _
    (loopFuel_spec a (now + 60 * minutesPerDay) _ hdv)]
  simp [keepOcc]

/-- The specification of the calendar range enumeration for an enabled
program with interval n days and anchor a: the caller-supplied range does
not affect the result; without a rain delay the emitted list is exactly
one whole-day occurrence per interval step from the anchor, capped by the
60-day horizon from now; and with interval 5 days and anchor now exactly
floor(60/5)+1 occurrences are emitted. -/
def EnumSpec (n a now : Int) : Prop :=
  (∀ (st : CalEntityState) (sd ed sd2 ed2 : Int),
      async_get_events ⟨true, true, some ⟨some n, some a⟩⟩ st now sd ed =
        async_get_events ⟨true, true, some ⟨some n, some a⟩⟩ st now sd2 ed2)
  ∧ (∀ (st : CalEntityState) (sd ed : Int), st.statusTruthy = false →
      async_get_events ⟨true, true, some ⟨some n, some a⟩⟩ st now sd ed =
        PyResult.ok (stepsList (n * minutesPerDay) a (now + 60 * minutesPerDay)))
  ∧ (∀ k : Nat,
      k < (stepsList (n * minutesPerDay) a (now + 60 * minutesPerDay)).length ↔
        a + k * (n * minutesPerDay) ≤ now + 60 * minutesPerDay)
  ∧ (∀ pr ∈ stepsList (n * minutesPerDay) a (now + 60 * minutesPerDay),
      pr.2 = pr.1 + 1)
  ∧ (∀ (st : CalEntityState) (t sd ed : Int), st.statusTruthy = false →
      ∃ L, async_get_events ⟨true, true, some ⟨some 5, some t⟩⟩ st t sd ed =
          PyResult.ok L ∧ L.length = 60 / 5 + 1)

/-- C2: the calendar range enumeration starts at the anchor and steps
forward by the interval, emitting one whole-day occurrence per step,
stopping only when the step exceeds the 60-day horizon from now; the
caller-supplied start and end dates do not affect the emitted set; and
with interval 5 days and anchor now, exactly floor(60/5)+1 occurrences
are emitted before rain-delay suppression. -/
theorem calendar_enumeration_correct (n a now : Int) (hn : 1 ≤ n) :
    EnumSpec n a now := by
  have hdv : 0 < n * minutesPerDay := by nlinarith [minutesPerDay_pos]
  refine ⟨fun st sd ed sd2 ed2 => rfl,
    fun st sd ed hst => async_get_events_nosupp_eq n a now sd ed st hn hst,
    ?_, ?_, ?_⟩
  · intro k
    have : (stepsList (n * minutesPerDay) a (now + 60 * minutesPerDay)).length =
        numSteps (n * minutesPerDay) a (now + 60 * minutesPerDay) := by
      simp [stepsList]
    rw [this]
    exact lt_numSteps_iff _ _ _ hdv k
  · intro pr hpr
    simp only [stepsList, List.mem_map] at hpr
    obtain ⟨k, _, hk⟩ := hpr
    rw [← hk]
    exact dateOf_add_day _
  · intro st t sd ed hst
    refine ⟨stepsList (5 * minutesPerDay) t (t + 60 * minutesPerDay),
      async_get_events_nosupp_eq 5 t t sd ed st (by norm_num) hst, ?_⟩
    have hlen : (stepsList (5 * minutesPerDay) t (t + 60 * minutesPerDay)).length =
        numSteps (5 * minutesPerDay) t (t + 60 * minutesPerDay) := by
      simp [stepsList]
    rw [hlen]
    have ht : t ≤ t + 60 * minutesPerDay := by
      have := minutesPerDay_pos
      linarith
    simp only [numSteps, if_pos ht]
    norm_num [minutesPerDay]
    decide

/-- Witness for C2 at interval 5 days, anchor now = 0. -/
theorem calendar_enumeration_correct_witness :
    (1 : Int) ≤ 5 ∧ EnumSpec 5 0 0 :=
  ⟨by norm_num, calendar_enumeration_correct 5 0 0 (by norm_num)⟩

/-- The specification of rain-delay suppression for an enabled program
with interval n days and anchor a, a stored status dictionary, a delay
start rs and delay hours h: the returned list is exactly the enumeration
filtered by the delay date window, and an occurrence is in the result
exactly when it is enumerated and its date is outside
[date(rs), date(rs + h hours)]. -/
def SuppressionSpec (n a now rs h : Int) : Prop :=
  (∀ sd ed : Int,
      async_get_events ⟨true, true, some ⟨some n, some a⟩⟩ ⟨true, some rs, h⟩
          now sd ed =
        PyResult.ok
          ((stepsList (n * minutesPerDay) a (now + 60 * minutesPerDay)).filter
            (fun pr => !suppressed rs (rs + h * minutesPerHour) pr.1)))
  ∧ (∀ (sd ed e1 e2 : Int) (L : List (Int × Int)),
      async_get_events ⟨true, true, some ⟨some n, some a⟩⟩ ⟨true, some rs, h⟩
          now sd ed = PyResult.ok L →
      ((e1, e2) ∈ L ↔
        ((e1, e2) ∈ stepsList (n * minutesPerDay) a (now + 60 * minutesPerDay) ∧
          ¬(dateOf rs ≤ e1 ∧ e1 ≤ dateOf (rs + h * minutesPerHour)))))

/-- C3: an occurrence emitted by the calendar range enumeration under an
active rain delay starting at rs with h delay hours is suppressed exactly
when its date falls within [date(rs), date(rs + h hours)]; occurrences
outside that date window are retained. -/
theorem rain_delay_suppression_correct (n a now rs h : Int) (hn : 1 ≤ n) :
    SuppressionSpec n a now rs h := by
  have hdv : 0 < n * minutesPerDay := by nlinarith [minutesPerDay_pos]
  have hmain : ∀ sd ed : Int,
      async_get_events ⟨true, true, some ⟨some n, some a⟩⟩ ⟨true, some rs, h⟩
          now sd ed =
        PyResult.ok
          ((stepsList (n * minutesPerDay) a (now + 60 * minutesPerDay)).filter
            (fun pr => !suppressed rs (rs + h * minutesPerHour) pr.1)) := by
    intro sd ed
    rw [async_get_events_run_supp n a now sd ed rs h hn]
    rw [getEventsLoop_eq _ _ _ hdv _ _ _
      (loopFuel_spec a (now + 60 * minutesPerDay) _ hdv)]
    simp [keepOcc]
  refine ⟨hmain, ?_⟩
  intro sd ed e1 e2 L hL
  rw [hmain sd ed] at hL
  have hLeq := PyResult.ok.inj hL
  subst hLeq
  rw [List.mem_filter]
  constructor
  · rintro ⟨hmem, hkeep⟩
    refine ⟨hmem, ?_⟩
    have hk : e1 < dateOf rs ∨ dateOf (rs + h * minutesPerHour) < e1 := by
      simpa [suppressed] using hkeep
    rintro ⟨h1, h2⟩
    rcases hk with hy | hy
    · exact absurd h1 (not_le.mpr hy)
    · exact absurd h2 (not_le.mpr hy)
  · rintro ⟨hmem, hout⟩
    refine ⟨hmem, ?_⟩
    have hk : e1 < dateOf rs ∨ dateOf (rs + h * minutesPerHour) < e1 := by
      rcases not_and_or.mp hout with hy | hy
      · exact Or.inl (not_le.mp hy)
      · exact Or.inr (not_le.mp hy)
    simpa [suppressed] using hk

/-- Witness for C3 at interval 1 day, anchor 0, now 0, rain delay
starting at 0 for 24 hours. -/
theorem rain_delay_suppression_correct_witness :
    (1 : Int) ≤ 1 ∧ SuppressionSpec 1 0 0 0 24 :=
  ⟨le_refl 1, rain_delay_suppression_correct 1 0 0 0 24 (le_refl 1)⟩

/-- C4: the reconnection backoff of client_listen (coordinator.py) cannot
execute: a failed connection attempt raises NameError while selecting the
exception handler (HusqvarnaWSServerHandshakeError is undefined in the
module), a successful attempt raises NameError at the doubling line
(MAX_WS_RECONNECT_TIME is undefined) unless Home Assistant is stopping,
and no invocation ever schedules a reconnect task — so no wait of D0,
no doubling, no ceiling and no reset ever happen. -/
theorem reconnect_backoff_broken :
    (∀ (rt : Option Int) (stopping : Bool),
      client_listen rt .failure stopping = PyResult.raise)
    ∧ (∀ rt : Option Int, client_listen rt .success false = PyResult.raise)
    ∧ (∀ rt : Option Int,
        client_listen rt .success true =
          PyResult.ok ([], some DEFAULT_RECONNECT_TIME, false))
    ∧ (∀ (rt : Option Int) (oc : ListenOutcome) (stopping : Bool)
        (sleeps : List Int) (rt2 : Option Int),
        client_listen rt oc stopping ≠ PyResult.ok (sleeps, rt2, true)) := by
  refine ⟨fun rt stopping => rfl, fun rt => rfl, fun rt => rfl, ?_⟩
  intro rt oc stopping sleeps rt2
  cases oc <;> cases stopping <;> simp [client_listen]

/-- C5: the battery parser reports 0 for non-record data, returns a
percent field verbatim, converts a millivolt field as
min(mv / 3000 * 100, 100) — so mv=3000 gives 100, mv=1500 gives 50 and
mv=6000 clamps to 100 — and is undefined (None) when neither field is
present. -/
theorem battery_parse_spec :
    (parse_battery_level .notDict = some 0)
    ∧ (∀ (p : ℚ) (mv : Option ℚ),
        parse_battery_level (.dict (some p) mv) = some p)
    ∧ (∀ m : ℚ,
        parse_battery_level (.dict none (some m)) =
          some (min (m / 3000 * 100) 100))
    ∧ (parse_battery_level (.dict none (some 3000)) = some 100)
    ∧ (parse_battery_level (.dict none (some 1500)) = some 50)
    ∧ (parse_battery_level (.dict none (some 6000)) = some 100)
    ∧ (parse_battery_level (.dict none none) = none) := by
  refine ⟨rfl, fun p mv => rfl, fun m => rfl, ?_, ?_, ?_, rfl⟩ <;>
    norm_num [parse_battery_level]

/-- C8: every user command payload has the shape
(event kind, device id, kind-specific fields): the manual preset runtime
of m minutes sends seconds = m*60, the rain delay sends the delay hours,
and starting a program sends mode "manual" with timestamp and program
body; with 15 minutes the seconds field carries 900. -/
theorem command_payload_shapes :
    (∀ (dev : String) (m : Int),
      set_manual_preset_runtime_payload dev m =
        [("event", MsgVal.str "set_manual_preset_runtime"),
         ("device_id", MsgVal.str dev),
         ("seconds", MsgVal.int (m * 60))])
    ∧ (∀ (dev : String) (hrs : Int),
        set_rain_delay_payload dev hrs =
          [("event", MsgVal.str "rain_delay"),
           ("device_id", MsgVal.str dev),
           ("delay", MsgVal.int hrs)])
    ∧ (∀ (dev ts : String) (pr : Nat),
        send_program_payload dev ts pr =
          [("event", MsgVal.str "change_mode"),
           ("mode", MsgVal.str "manual"),
           ("device_id", MsgVal.str dev),
           ("timestamp", MsgVal.str ts),
           ("program", MsgVal.obj pr)])
    ∧ (∀ dev : String,
        (set_manual_preset_runtime_payload dev 15).lookup "seconds" =
          some (MsgVal.int 900)) :=
  ⟨fun dev m => rfl, fun dev hrs => rfl, fun dev ts pr => rfl, fun dev => rfl⟩

/-- C9: the view derivations of the base device entity, the battery
sensor and the flood sensor are idempotent: updating twice from the same
device record yields the same observable entity state as updating once. -/
theorem update_attrs_idempotent :
    (∀ (d : DeviceRec) (s : BaseSt),
      base_update_attrs d (base_update_attrs d s) = base_update_attrs d s)
    ∧ (∀ (d : DeviceRec) (s : BatterySt),
        battery_update_attrs d (battery_update_attrs d s) =
          battery_update_attrs d s)
    ∧ (∀ (d : DeviceRec) (s : FloodSt),
        flood_update_attrs d (flood_update_attrs d s) = flood_update_attrs d s) :=
  ⟨fun d s => rfl, fun d s => rfl, fun d s => rfl⟩

/-- The Python substring test agrees with contiguous-occurrence
(infix) containment. -/
lemma pyStrIn_iff (needle : List Char) :
    ∀ hay : List Char, pyStrIn needle hay = true ↔ needle <:+: hay := by
  intro hay
  induction hay with
  | nil =>
    simp [pyStrIn, List.isEmpty_iff]
  | cons c t ih =>
    simp [pyStrIn, ih, List.infix_cons_iff, List.isPrefixOf_iff_prefix]

/-- C6 counterexample: the temperature alarm view is true for the status
value "no_alarm", which is not exactly the string "alarm" — the source
tests substring containment, not exact equality. -/
theorem temp_alarm_exact_match_refuted :
    temp_alarm_state (some "no_alarm".toList) = true ∧
      "no_alarm".toList ≠ "alarm".toList := by
  constructor
  · decide
  · decide

/-- C6 amended: the flood alarm view is true exactly when the status
field is exactly the string "alarm" (missing yields false), while the
temperature alarm view is true exactly when "alarm" occurs as a
contiguous substring of the status field (missing yields false). -/
theorem alarm_views_amended :
    (∀ f : Option (List Char),
      flood_alarm_state f = true ↔ f = some "alarm".toList)
    ∧ (∀ g : Option (List Char),
        temp_alarm_state g = true ↔ ∃ s, g = some s ∧ "alarm".toList <:+: s)
    ∧ flood_alarm_state none = false ∧ temp_alarm_state none = false := by
  refine ⟨?_, ?_, rfl, rfl⟩
  · intro f
    cases f with
    | none => simp [flood_alarm_state]
    | some s => simp [flood_alarm_state]
  · intro g
    cases g with
    | none => simp [temp_alarm_state]
    | some s => simp [temp_alarm_state, pyStrIn_iff]

/-- The history-sensor view derivation is total: every branch of the
scan returns a value, mirroring the guards of the source. -/
lemma history_zone_loop_total (z : Option Int) :
    ∀ (items : List HistoryItem) (s : HistSt),
      ∃ st, history_zone_loop z items s = PyResult.ok st := by
  intro items
  induction items with
  | nil => intro s; exact ⟨s, rfl⟩
  | cons item rest ih =>
    intro s
    simp only [history_zone_loop]
    split
    · exact ih s
    · split
      · exact ⟨s, rfl⟩
      · split
        · exact ⟨_, rfl⟩
        · exact ⟨s, rfl⟩

/-- C7 counterexample: the calendar event computation raises on a program
record that is enabled and has a program id but no frequency sub-record
(AttributeError on frequency.get in the source), instead of degrading to
a default. -/
theorem derived_views_totality_refuted :
    calendar_event ⟨true, true, none⟩ 0 = PyResult.raise := by decide

/-- C7 amended: the sensor-layer view derivations are total — the
zone-history scan returns a value on every input, mirroring the guards of
the source — and the calendar occurrence loop itself cannot raise once an
interval is present; but the calendar event computation raises exactly
when the program is enabled with a program id and the frequency
sub-record is missing, or its anchor is missing, or its interval is
missing while the anchor is within the horizon and its window does not
contain now.  Missing or malformed fields thus degrade to defaults in the
sensor views, but not in the calendar view. -/
theorem derived_views_totality_amended :
    (∀ (z : Option Int) (hs : Option (List HistoryItem)) (s : HistSt),
      ∃ st, history_update_attrs z hs s = PyResult.ok st)
    ∧ (∀ (dv now : Int) (fuel : Nat) (ist : Int) (e : Option Int),
        evLoop (some dv) now fuel ist e ≠ PyResult.raise)
    ∧ (∀ (en hp : Bool) (f : Option Frequency) (now : Int),
        calendar_event ⟨en, hp, f⟩ now = PyResult.raise ↔
          (en = true ∧ hp = true ∧
            (f = none ∨ ∃ fr, f = some fr ∧
              (fr.interval_start_time = none ∨
                ∃ a, fr.interval_start_time = some a ∧ fr.interval = none ∧
                  a ≤ now + 60 * minutesPerDay ∧
                  ¬(a ≤ now ∧ now < a + minutesPerDay))))) := by
  refine ⟨fun z hs s => history_zone_loop_total z (hs.getD []) s,
    fun dv now fuel ist e => evLoop_ne_raise dv now fuel ist e, ?_⟩
  intro en hp f now
  cases en with
  | false => simp [calendar_event]
  | true =>
    cases hp with
    | false => simp [calendar_event]
    | true =>
      cases f with
      | none => simp [calendar_event]
      | some fr =>
        obtain ⟨iv, ist⟩ := fr
        cases ist with
        | none => simp [calendar_event, orbit_time_to_local_time]
        | some a =>
          cases iv with
          | some nn =>
            have hne := evLoop_ne_raise (nn * minutesPerDay) now
              (progFuel a (now + 60 * minutesPerDay) (some (nn * minutesPerDay))) a none
            simp [calendar_event, orbit_time_to_local_time, hne]
          | none =>
            by_cases h1 : a ≤ now + 60 * minutesPerDay
            · by_cases h2 : a ≤ now ∧ now < a + minutesPerDay
              · simp [calendar_event, orbit_time_to_local_time, progFuel,
                  evLoop, h1, h2]
              · simp only [calendar_event, orbit_time_to_local_time, progFuel,
                  evLoop, h1, h2]
                simp [h1, h2]
                intro h
                exact not_lt.mp (not_and.mp h2 h)
            · simp [calendar_event, orbit_time_to_local_time, progFuel,
                evLoop, h1]
